import Mathlib

/-!
Verification of the tiny-qr QR-code generator: a shallow embedding of the
Rust sources (`matrix.rs`, `mask.rs`, `blocks.rs`, `format.rs`, `buffer.rs`,
`encoding.rs`, `qr_version.rs`, `qrcode.rs`, `draw_iterator.rs`,
`error_correction.rs`) together with theorems settling the specification
claims about terminator/padding, numeric segment encoding, version/ECC
selection, block layout, format BCH codes, masking, the draw iterator,
penalty scoring and the builder.
-/

set_option maxRecDepth 10000

namespace TinyQr

-- ===== Definitions =====

/-- Color of a module (`matrix.rs`, `enum Color`). -/
inductive Color where
  | White
  | Black
deriving DecidableEq

/-- `Color::inverse` (`matrix.rs`). -/
def Color.inverse : Color → Color
  | .White => .Black
  | .Black => .White

/-- Module states (`matrix.rs`, `enum Module`). -/
inductive Module where
  | Filled (c : Color)
  | Empty
  | Static (c : Color)
  | Reserved
deriving DecidableEq

/-- `impl From<Module> for Color` (`matrix.rs`). -/
def Module.toColor : Module → Color
  | .Filled c => c
  | .Empty => .White
  | .Static c => c
  | .Reserved => .White

/-- `enum ErrorCorrectionLevel` (`error_correction.rs`). -/
inductive ErrorCorrectionLevel where
  | Low
  | Medium
  | Quartile
  | High
deriving DecidableEq

/-- `ErrorCorrectionLevel::increment` (`error_correction.rs`). -/
def ErrorCorrectionLevel.increment : ErrorCorrectionLevel → Option ErrorCorrectionLevel
  | .Low => some .Medium
  | .Medium => some .Quartile
  | .Quartile => some .High
  | .High => none

/-- Position of a level in the derived `Ord` of the Rust enum
(`Low < Medium < Quartile < High`). -/
def ErrorCorrectionLevel.rank : ErrorCorrectionLevel → Nat
  | .Low => 0
  | .Medium => 1
  | .Quartile => 2
  | .High => 3

/-- `enum EncodingMode` (`encoding.rs`). -/
inductive EncodingMode where
  | Numeric
  | Alphanumeric
  | Byte
deriving DecidableEq

/-- `enum CharacterSet` (`encoding.rs`). -/
inductive CharacterSet where
  | Numeric
  | Alphanumeric
  | Iso8859_1
  | Unicode
deriving DecidableEq

/-- `CharacterSet::to_encoding_mode` (`encoding.rs`). -/
def CharacterSet.toEncodingMode : CharacterSet → EncodingMode
  | .Numeric => .Numeric
  | .Alphanumeric => .Alphanumeric
  | .Iso8859_1 => .Byte
  | .Unicode => .Byte

/-- `struct Version` (`qr_version.rs`). -/
structure Version where
  version : Nat
deriving DecidableEq

/-- `version_to_size` (`qr_version.rs`). -/
def version_to_size (version : Nat) : Nat := version * 4 + 17

/-- `Version::decrement` (`qr_version.rs`). -/
def Version.decrement (v : Version) : Option Version :=
  if v.version > 1 then some ⟨v.version - 1⟩ else none

/-- `Version::width` (`qr_version.rs`). -/
def Version.width (v : Version) : Nat := version_to_size v.version

/-- `Version::character_count_indicator_bit_length` (`qr_version.rs`).
The Rust match arms `0..=9`, `10..=26`, `27..=40` and a `panic!()` arm for
larger versions; the panic arm is modelled as 0 and is never reached under
the supported-version hypotheses used below. -/
def Version.characterCountIndicatorBitLength (v : Version) (encoding : EncodingMode) : Nat :=
  match encoding with
  | .Numeric =>
    if v.version ≤ 9 then 10 else if v.version ≤ 26 then 12 else if v.version ≤ 40 then 14 else 0
  | .Alphanumeric =>
    if v.version ≤ 9 then 9 else if v.version ≤ 26 then 11 else if v.version ≤ 40 then 13 else 0
  | .Byte =>
    if v.version ≤ 9 then 8 else if v.version ≤ 26 then 16 else if v.version ≤ 40 then 16 else 0

/-- `Version::total_codeword_count` (`qr_version.rs`, ISO/IEC 18004 table);
the `panic!()` arm for versions outside 1..=25 is modelled as 0. -/
def Version.totalCodewordCount (v : Version) : Nat :=
  match v.version with
  | 1 => 26
  | 2 => 44
  | 3 => 70
  | 4 => 100
  | 5 => 134
  | 6 => 172
  | 7 => 196
  | 8 => 242
  | 9 => 292
  | 10 => 346
  | 11 => 404
  | 12 => 466
  | 13 => 532
  | 14 => 581
  | 15 => 655
  | 16 => 733
  | 17 => 815
  | 18 => 901
  | 19 => 991
  | 20 => 1085
  | 21 => 1156
  | 22 => 1258
  | 23 => 1364
  | 24 => 1474
  | 25 => 1588
  | _ => 0

/-- `Version::error_correction_codeword_blocks_count` (`qr_version.rs`):
`(total_ecc_codewords, block_count)`. The `panic!()` arm for unsupported
pairs is modelled as `(0, 1)` and never reached under the supported-pair
hypotheses used below. -/
def Version.errorCorrectionCodewordBlocksCount
    (v : Version) (e : ErrorCorrectionLevel) : Nat × Nat :=
  match v.version, e with
  | 1, .Low => (7, 1)
  | 1, .Medium => (10, 1)
  | 1, .Quartile => (13, 1)
  | 1, .High => (17, 1)
  | 2, .Low => (10, 1)
  | 2, .Medium => (16, 1)
  | 2, .Quartile => (22, 1)
  | 2, .High => (28, 1)
  | 3, .Low => (15, 1)
  | 3, .Medium => (26, 1)
  | 3, .Quartile => (36, 2)
  | 3, .High => (44, 2)
  | 4, .Low => (20, 1)
  | 4, .Medium => (36, 2)
  | 4, .Quartile => (52, 2)
  | 4, .High => (64, 4)
  | 5, .Low => (26, 1)
  | 5, .Medium => (48, 2)
  | 5, .Quartile => (72, 4)
  | 5, .High => (88, 4)
  | _, _ => (0, 1)

/-- `Version::data_codeword_count` (`qr_version.rs`). -/
def Version.dataCodewordCount (v : Version) (e : ErrorCorrectionLevel) : Nat :=
  v.totalCodewordCount - (v.errorCorrectionCodewordBlocksCount e).1

/-- `Version::data_codeword_bit_len` (`qr_version.rs`). -/
def Version.dataCodewordBitLen (v : Version) (e : ErrorCorrectionLevel) : Nat :=
  v.dataCodewordCount e * 8

/-- `struct BlockLength` (`blocks.rs`). -/
structure BlockLength where
  block_number : Nat
  block_count : Nat
  data_pos : Nat
  data_len : Nat
  ecc_pos : Nat
  ecc_len : Nat
deriving DecidableEq

/-- First item produced by `BlockLengthIterator::next` (`blocks.rs`,
the `self.last.is_none()` branch). -/
def blockFirst (v : Version) (e : ErrorCorrectionLevel) : BlockLength :=
  let dataLen := v.dataCodewordCount e
  let eccBlocks := v.errorCorrectionCodewordBlocksCount e
  { block_number := 0
    block_count := eccBlocks.2
    data_pos := 0
    data_len := dataLen / eccBlocks.2
    ecc_pos := dataLen
    ecc_len := eccBlocks.1 / eccBlocks.2 }

/-- Step of `BlockLengthIterator::next` (`blocks.rs`, the `else` branch):
`data_total` is the shadowing `data_len` local, i.e. the total data codeword
count of the (version, ecc) pair. -/
def blockStep (dataTotal : Nat) (b : BlockLength) : Option BlockLength :=
  let bn := b.block_number + 1
  if bn < b.block_count then
    some { b with
      block_number := bn
      data_pos := b.data_pos + b.data_len
      ecc_pos := b.ecc_pos + b.ecc_len
      data_len := if bn = dataTotal % b.block_count then b.data_len + 1 else b.data_len }
  else
    none

/-- The items yielded by `BlockLengthIterator` starting from block `b`, with
fuel bounding the count; the iterator yields exactly `block_count` items. -/
def blockListFrom (dataTotal : Nat) (b : BlockLength) : Nat → List BlockLength
  | 0 => []
  | n + 1 =>
    b :: (match blockStep dataTotal b with
          | some b2 => blockListFrom dataTotal b2 n
          | none => [])

/-- All items yielded by `BlockLengthIterator::new(v, e)` (`blocks.rs`). -/
def blockLengthList (v : Version) (e : ErrorCorrectionLevel) : List BlockLength :=
  blockListFrom (v.dataCodewordCount e) (blockFirst v e)
    (v.errorCorrectionCodewordBlocksCount e).2

/-- `FormatEncoder::masked_sequence` (`format.rs`): the 32-entry lookup table
of final 15-bit format sequences; the `panic!()` arm is modelled as 0. -/
def maskedSequence (dataBits : Nat) : Nat :=
  match dataBits with
  | 0 => 0x5412
  | 1 => 0x5125
  | 2 => 0x5e7c
  | 3 => 0x5b4b
  | 4 => 0x45f9
  | 5 => 0x40ce
  | 6 => 0x4f97
  | 7 => 0x4aa0
  | 8 => 0x77c4
  | 9 => 0x72f3
  | 10 => 0x7daa
  | 11 => 0x789d
  | 12 => 0x662f
  | 13 => 0x6318
  | 14 => 0x6c41
  | 15 => 0x6976
  | 16 => 0x1689
  | 17 => 0x13be
  | 18 => 0x1ce7
  | 19 => 0x19d0
  | 20 => 0x0762
  | 21 => 0x0255
  | 22 => 0x0d0c
  | 23 => 0x083b
  | 24 => 0x355f
  | 25 => 0x3068
  | 26 => 0x3f31
  | 27 => 0x3a06
  | 28 => 0x24b4
  | 29 => 0x2183
  | 30 => 0x2eda
  | 31 => 0x2bed
  | _ => 0

/-- `struct FormatEncoder` (`format.rs`). -/
structure FormatEncoder where
  error_correction_level : ErrorCorrectionLevel
  mask_reference : Nat

/-- `FormatEncoder::encode` (`format.rs`). -/
def FormatEncoder.encode (f : FormatEncoder) : Nat :=
  let errorCorrectionLevel : Nat :=
    match f.error_correction_level with
    | .Low => 0b01
    | .Medium => 0b00
    | .Quartile => 0b11
    | .High => 0b10
  maskedSequence ((errorCorrectionLevel <<< 3) + f.mask_reference)

/-- Modelled from the spec: the ECC-level bits of the format data,
`{L=01, M=00, Q=11, H=10}`. -/
def specEccBits : ErrorCorrectionLevel → Nat
  | .Low => 0b01
  | .Medium => 0b00
  | .Quartile => 0b11
  | .High => 0b10

/-- Modelled from the spec: remainder of the degree-14 polynomial `n` over
GF(2) by the BCH(15,5) generator `0b10100110111`: for each bit position from
14 down to 10, cancel it with the shifted generator. -/
def bchRemainder (n : Nat) : Nat :=
  [14, 13, 12, 11, 10].foldl
    (fun acc i => if acc.testBit i then acc ^^^ (0b10100110111 <<< (i - 10)) else acc) n

/-- Modelled from the spec: extend the 5-bit format data with its BCH(15,5)
remainder and XOR with the mask pattern `0b101010000010010` (0x5412). -/
def specFormatSequence (d : Nat) : Nat :=
  ((d <<< 10) ||| bchRemainder (d <<< 10)) ^^^ 0b101010000010010

/-- `MAX_VERSION` (`qrcode.rs`). -/
def MAX_VERSION : Nat := 4

/-- Outcome of `QrCodeBuilder::build` (`qrcode.rs`), modelled up to the
resolved configuration handed to the encoding pipeline.  The constructor
`missingPayloadError` encodes the spec's `MissingPayload` error kind; the
source never produces it.  `assertFailed` is the
`assert!(selected_version_number <= MAX_VERSION)` abort, and
`panickedUnwrap` is the `self.text.unwrap()` panic on an absent payload. -/
inductive BuildResult where
  | ok (version : Nat) (ecc : ErrorCorrectionLevel) (maskRef : Option Nat) (text : List Nat)
  | missingPayloadError
  | assertFailed
  | panickedUnwrap
deriving DecidableEq

/-- `struct QrCodeBuilder` (`qrcode.rs`); the payload is a list of Unicode
code points. -/
structure QrCodeBuilder where
  version : Option Nat
  error_correction_level : ErrorCorrectionLevel
  mask_reference : Option Nat
  text : Option (List Nat)

/-- `QrCodeBuilder::new` (`qrcode.rs`). -/
def QrCodeBuilder.new : QrCodeBuilder :=
  { version := none
    error_correction_level := .Medium
    mask_reference := none
    text := none }

/-- `QrCodeBuilder::build` (`qrcode.rs`), modelled up to the point where the
resolved configuration is handed to the pipeline: the version default and
range assert, then `self.text.unwrap()`. -/
def QrCodeBuilder.build (b : QrCodeBuilder) : BuildResult :=
  let selectedVersionNumber := b.version.getD MAX_VERSION
  if selectedVersionNumber ≤ MAX_VERSION then
    match b.text with
    | none => .panickedUnwrap
    | some t => .ok selectedVersionNumber b.error_correction_level b.mask_reference t
  else
    .assertFailed

/-- A module matrix (`Matrix` in `matrix.rs` / `Array2D<Module, N>` in
`array_2d.rs`): a square backing store of logical side `size`, represented as
a total function; cells outside the logical size are never touched or read by
the operations below. -/
structure Matrix where
  size : Nat
  data : Nat → Nat → Module

/-- The mask predicates (`Masked::from` in `mask.rs` and `Matrix::mask` in
`matrix.rs` contain the same table); the `panic!()` arm for references
outside 0..=7 is modelled as `false`. -/
def maskCondition (reference : Nat) (x y : Nat) : Bool :=
  match reference with
  | 0 => (x + y) % 2 == 0
  | 1 => x % 2 == 0
  | 2 => y % 3 == 0
  | 3 => (x + y) % 3 == 0
  | 4 => (x / 2 + y / 3) % 2 == 0
  | 5 => (x * y) % 2 + (x * y) % 3 == 0
  | 6 => ((x * y) % 2 + (x * y) % 3) % 2 == 0
  | 7 => ((x + y) % 2 + (x * y) % 3) % 2 == 0
  | _ => false

/-- `Matrix::mask` (`matrix.rs`) = `Masked::from` (`mask.rs`): flip `Filled`
modules where the mask predicate holds, over all cells of the logical size. -/
def Matrix.mask (m : Matrix) (reference : Nat) : Matrix :=
  { m with
    data := fun x y =>
      if x < m.size ∧ y < m.size then
        match m.data x y with
        | .Filled color =>
          if maskCondition reference x y then .Filled color.inverse else .Filled color
        | other => other
      else
        m.data x y }

/-- Row `x` of the matrix as colors (`Array2D::rows` plus the per-module
`Color` conversion used by the scoring code in `mask.rs`). -/
def Matrix.rowColors (m : Matrix) (x : Nat) : List Color :=
  (List.range m.size).map fun y => (m.data x y).toColor

/-- Column `y` of the matrix as colors (`Array2D::columns` plus the
`Color` conversion). -/
def Matrix.colColors (m : Matrix) (y : Nat) : List Color :=
  (List.range m.size).map fun x => (m.data x y).toColor

/-- `AdjacentIterator` (`mask.rs`): lengths of the maximal runs of equal
colors, given the first element's color, the current run length and the rest
of the line. -/
def runLengthsAux (c : Color) (n : Nat) : List Color → List Nat
  | [] => [n]
  | d :: rest => if d = c then runLengthsAux c (n + 1) rest else n :: runLengthsAux d 1 rest

/-- Run lengths of a line of colors (`AdjacentIterator`, `mask.rs`). -/
def runLengths : List Color → List Nat
  | [] => []
  | c :: rest => runLengthsAux c 1 rest

/-- Penalty contribution of one line: runs of length ≥ 5 score `len - 2`
(`score_adjacent_horizontal` / `score_adjacent_vertical`, `mask.rs`). -/
def adjacentScoreOfLine (l : List Color) : Nat :=
  (((runLengths l).filter (fun i => 5 ≤ i)).map (fun i => i - 2)).sum

/-- `Masked::score_adjacent_horizontal` (`mask.rs`). -/
def Matrix.scoreAdjacentHorizontal (m : Matrix) : Nat :=
  ((List.range m.size).map fun x => adjacentScoreOfLine (m.rowColors x)).sum

/-- `Masked::score_adjacent_vertical` (`mask.rs`). -/
def Matrix.scoreAdjacentVertical (m : Matrix) : Nat :=
  ((List.range m.size).map fun y => adjacentScoreOfLine (m.colColors y)).sum

/-- `Masked::score_blocks` (`mask.rs`): 3 points per 2×2 window of equal
colors. -/
def Matrix.scoreBlocks (m : Matrix) : Nat :=
  ((List.range (m.size - 1)).map fun x =>
    ((List.range (m.size - 1)).map fun y =>
      if (m.data x y).toColor = (m.data x (y + 1)).toColor
          ∧ (m.data x y).toColor = (m.data (x + 1) y).toColor
          ∧ (m.data x y).toColor = (m.data (x + 1) (y + 1)).toColor then 3 else 0).sum).sum

/-- First finder-like match pattern of `score_match_pattern` (`mask.rs`). -/
def matchPattern1 : List Color :=
  [.Black, .White, .Black, .Black, .Black, .White, .Black, .White, .White, .White, .White]

/-- Second finder-like match pattern of `score_match_pattern` (`mask.rs`). -/
def matchPattern2 : List Color :=
  [.White, .White, .White, .White, .Black, .White, .Black, .Black, .Black, .White, .Black]

/-- `Masked::score_match_pattern` (`mask.rs`): the number of sliding 11-wide
windows of the line equal to one of the two finder-like patterns.  (The Rust
code unwraps the first 11 elements, panicking on lines shorter than 11; no
such window exists then and the count for them is 0.) -/
def patternCount : List Color → Nat
  | [] => 0
  | c :: rest =>
    (if 11 ≤ (c :: rest).length
        ∧ ((c :: rest).take 11 = matchPattern1 ∨ (c :: rest).take 11 = matchPattern2)
      then 1 else 0)
    + patternCount rest

/-- `Masked::score_pattern_horizontal` (`mask.rs`). -/
def Matrix.scorePatternHorizontal (m : Matrix) : Nat :=
  ((List.range m.size).map fun x => patternCount (m.rowColors x)).sum * 40

/-- `Masked::score_pattern_vertical` (`mask.rs`). -/
def Matrix.scorePatternVertical (m : Matrix) : Nat :=
  ((List.range m.size).map fun y => patternCount (m.colColors y)).sum * 40

/-- The black-module count of `Masked::score_proportion` (`mask.rs`). -/
def Matrix.blackCount (m : Matrix) : Nat :=
  ((List.range m.size).map fun x =>
    ((List.range m.size).filter fun y => (m.data x y).toColor = Color.Black).length).sum

/-- `Masked::score_proportion` (`mask.rs`): integer percentage of black
modules, distance from 50, `k / 5 * 10`. -/
def Matrix.scoreProportion (m : Matrix) : Nat :=
  let percentage := m.blackCount * 100 / (m.size * m.size)
  let k := if percentage < 50 then 50 - percentage else percentage - 50
  k / 5 * 10

/-- `Masked::score` (`mask.rs`): sum of the four penalty terms. -/
def Matrix.score (m : Matrix) : Nat :=
  m.scoreAdjacentHorizontal + m.scoreAdjacentVertical + m.scoreBlocks
    + m.scorePatternHorizontal + m.scorePatternVertical + m.scoreProportion

/-- Modelled from the claim/spec words (§4.9 N4): `p = round(100·black/total)`
to the nearest integer, `k = |p − 50|`, score `⌊k/5⌋·10`. -/
def specScoreProportionRound (m : Matrix) : Nat :=
  let total := m.size * m.size
  let p := (200 * m.blackCount + total) / (2 * total)
  let k := ((p : Int) - 50).natAbs
  k / 5 * 10

/-- The amended floor variant: `p = ⌊100·black/total⌋`, `k = |p − 50|`,
score `⌊k/5⌋·10`. -/
def specScoreProportionFloor (m : Matrix) : Nat :=
  let p := 100 * m.blackCount / (m.size * m.size)
  let k := ((p : Int) - 50).natAbs
  k / 5 * 10

/-- Replace every `Empty` and `Reserved` module by a white `Filled` module;
used to state that scoring and the color grid treat them as white. -/
def Matrix.whitenUnfilled (m : Matrix) : Matrix :=
  { m with
    data := fun x y =>
      match m.data x y with
      | .Empty => .Filled .White
      | .Reserved => .Filled .White
      | other => other }

/-- A 21×21 matrix of static modules with 242 black cells; with 242/441
black modules the floor percentage is 54 while the rounded percentage is 55,
separating the two proportion-score definitions. -/
def proportionCexMatrix : Matrix :=
  { size := 21
    data := fun x y => if x * 21 + y < 242 then .Static .Black else .Static .White }

/-- `QrCode` (`qrcode.rs`): the final color grid with its logical size;
cells outside the logical size are never read. -/
structure QrCode where
  size : Nat
  data : Nat → Nat → Color

/-- `QrCode::from` (`qrcode.rs`): convert every module of the masked matrix
to a color via the `Module`-to-`Color` conversion. -/
def QrCode.ofMasked (m : Matrix) : QrCode :=
  { size := m.size
    data := fun x y =>
      if x < m.size ∧ y < m.size then (m.data x y).toColor else .White }

/-- `BORDER_SIZE` (`draw_iterator.rs`). -/
def BORDER_SIZE : Nat := 4

/-- `DrawIterator::height` (`draw_iterator.rs`). -/
def drawHeight (q : QrCode) : Nat := 8 + q.size

/-- `DrawIterator::width` (`draw_iterator.rs`). -/
def drawWidth (q : QrCode) : Nat := 8 + q.size

/-- The color yielded at position `(x, y)`: white for the quiet-zone border,
otherwise the stored grid color (`DrawIterator::next` and
`is_current_pos_border`, `draw_iterator.rs`). -/
def drawColor (q : QrCode) (x y : Nat) : Color :=
  if x < BORDER_SIZE ∨ y < BORDER_SIZE ∨ q.size + BORDER_SIZE ≤ x ∨ q.size + BORDER_SIZE ≤ y then
    .White
  else
    q.data (x - BORDER_SIZE) (y - BORDER_SIZE)

/-- The run of `DrawIterator` from state `(x, y)` (`draw_iterator.rs`):
yield `(x, y, color)` while `y < height`, stepping `x` and wrapping to the
next `y` at `width`. -/
def drawRun (q : QrCode) (x y : Nat) : List (Nat × Nat × Color) :=
  if y < drawHeight q then
    (x, y, drawColor q x y) ::
      (if x + 1 ≥ drawWidth q then drawRun q 0 (y + 1) else drawRun q (x + 1) y)
  else
    []
termination_by (drawHeight q - y) * (drawWidth q + 1) + (drawWidth q - x)
decreasing_by
  · calc (drawHeight q - (y + 1)) * (drawWidth q + 1) + (drawWidth q - 0)
        < (drawHeight q - (y + 1)) * (drawWidth q + 1) + (drawWidth q + 1) := by omega
      _ = (drawHeight q - (y + 1) + 1) * (drawWidth q + 1) := by ring
      _ = (drawHeight q - y) * (drawWidth q + 1) := by
          congr 1
          omega
      _ ≤ (drawHeight q - y) * (drawWidth q + 1) + (drawWidth q - x) := by omega
  · omega

/-- All items yielded by `DrawIterator::new` (`draw_iterator.rs`). -/
def drawIter (q : QrCode) : List (Nat × Nat × Color) := drawRun q 0 0

/-- `Buffer::append_number` (`buffer.rs`): the low `bitLen` bits of `number`,
MSB-first.  The buffer is modelled as the list of appended bits; all buffer
writes of the encoders go through `append_number`, `append_bits` (literal
bit lists) and `append_byte` (identical to `append_number _ 8` in terms of
the bit sequence). -/
def appendNumber (number : Nat) (bitLen : Nat) : List Bool :=
  (List.range bitLen).reverse.map fun index => number.testBit index

/-- `append_number(0, n)`: `n` zero bits. -/
def zeros (n : Nat) : List Bool := List.replicate n false

/-- The `encode_padding` loop of every data encoder (`encoding.rs`): append
`0xEC11` 16-bit words while at least 16 bits remain, a final `0xEC` byte for
exactly 8, stop at 0; any other remainder hits the `unreachable!()` panic,
and a buffer already past `max` hits the usize-subtraction panic — both are
modelled as `none`. -/
def paddingBits : Nat → Option (List Bool)
  | 0 => some []
  | 8 => some (appendNumber 0b11101100 8)
  | d + 16 =>
    match paddingBits d with
    | some tail => some (appendNumber 0b1110110000010001 16 ++ tail)
    | none => none
  | _ => none

/-- The number of zero bits appended by `encode_terminator` (`encoding.rs`,
identical in all four data encoders): `max - bit_len` when fewer than 4 bits
remain, otherwise `4 + (8 - ((bit_len + 4) % 8))`. -/
def encodeTerminatorLen (maxDataBitLen bufferBitLen : Nat) : Nat :=
  if maxDataBitLen - bufferBitLen < 4 then maxDataBitLen - bufferBitLen
  else 4 + (8 - (bufferBitLen + 4) % 8)

/-- `encode_terminator` followed by `encode_padding` (`encoding.rs`) applied
to the buffer `pre` holding mode indicator, character count and payload. -/
def terminatorAndPadding (maxDataBitLen : Nat) (pre : List Bool) : Option (List Bool) :=
  let afterTerminator := pre ++ zeros (encodeTerminatorLen maxDataBitLen pre.length)
  if maxDataBitLen < afterTerminator.length then none
  else
    match paddingBits (maxDataBitLen - afterTerminator.length) with
    | some padding => some (afterTerminator ++ padding)
    | none => none

/-- Alternating padding bytes `0xEC`, `0x11`, `0xEC`, … as bits. -/
def altPadBytes : Nat → List Bool
  | 0 => []
  | 1 => appendNumber 0b11101100 8
  | n + 2 => appendNumber 0b11101100 8 ++ (appendNumber 0b00010001 8 ++ altPadBytes n)

/-- Modelled from the claim/spec words (§4.3): append up to 4 zero terminator
bits but never past `max`, then zero bits until byte-aligned, then
alternating padding bytes `0xEC` and `0x11` until `bit_len = max`. -/
def specTerminatorAndPadding (maxDataBitLen : Nat) (pre : List Bool) : List Bool :=
  let t := min 4 (maxDataBitLen - pre.length)
  let a := (8 - (pre.length + t) % 8) % 8
  pre ++ zeros t ++ zeros a ++ altPadBytes ((maxDataBitLen - (pre.length + t + a)) / 8)

/-- The UTF-8 encoding of a code point (`str::bytes` in Rust; `str::len` is
the total number of these bytes). -/
def utf8Bytes (c : Nat) : List Nat :=
  if c < 0x80 then [c]
  else if c < 0x800 then
    [0xC0 ||| (c >>> 6), 0x80 ||| (c &&& 0x3F)]
  else if c < 0x10000 then
    [0xE0 ||| (c >>> 12), 0x80 ||| ((c >>> 6) &&& 0x3F), 0x80 ||| (c &&& 0x3F)]
  else
    [0xF0 ||| (c >>> 18), 0x80 ||| ((c >>> 12) &&& 0x3F), 0x80 ||| ((c >>> 6) &&& 0x3F),
      0x80 ||| (c &&& 0x3F)]

/-- `str::len` of the payload: its UTF-8 byte length.  All the `data.len()`
uses in `encoding.rs` (the capacity formula and the character-count
indicators) take this byte length. -/
def byteLen (text : List Nat) : Nat := (text.map fun c => (utf8Bytes c).length).sum

/-- `is_char_numeric` (`encoding.rs`): ASCII digit. -/
def isCharNumeric (c : Nat) : Bool := 0x30 ≤ c && c ≤ 0x39

/-- `is_char_alphanumeric` (`encoding.rs`): the 45-character table. -/
def isCharAlphanumeric (c : Nat) : Bool :=
  (0x30 ≤ c && c ≤ 0x39) || (0x41 ≤ c && c ≤ 0x5A) || c == 0x20 || c == 0x24 || c == 0x25
    || c == 0x2A || c == 0x2B || c == 0x2D || c == 0x2E || c == 0x2F || c == 0x3A

/-- `is_char_iso_8859_1` (`encoding.rs`). -/
def isCharIso8859_1 (c : Nat) : Bool := c ≤ 0xFF

/-- `detect_character_set` (`encoding.rs`). -/
def detectCharacterSet (data : List Nat) : CharacterSet :=
  if data.all isCharNumeric then .Numeric
  else if data.all isCharAlphanumeric then .Alphanumeric
  else if data.all isCharIso8859_1 then .Iso8859_1
  else .Unicode

/-- `calculate_encoded_data_bit_length` (`encoding.rs`); the `panic!()` arm of
the `data_len % 3` match is unreachable and modelled as 0. -/
def calculateEncodedDataBitLength
    (dataLen : Nat) (version : Version) (characterSet : CharacterSet) : Nat :=
  let modeBits := 4
  let charCountLen := version.characterCountIndicatorBitLength characterSet.toEncodingMode
  match characterSet with
  | .Numeric =>
    modeBits + charCountLen + 10 * (dataLen / 3)
      + (match dataLen % 3 with
         | 0 => 0
         | 1 => 4
         | 2 => 7
         | _ => 0)
  | .Alphanumeric => modeBits + charCountLen + 11 * (dataLen / 2) + 6 * (dataLen % 2)
  | .Iso8859_1 => modeBits + charCountLen + 8 * dataLen
  | .Unicode => 4 + 8 + modeBits + charCountLen + 8 * dataLen

/-- `NumericDataEncoder::encode_data` (`encoding.rs`): parse and append
groups of 3 digits in 10 bits, a trailing pair in 7 bits, and a trailing
single digit in 3 bits (`append_number(number, 3)` in the source). -/
def numericEncodeData : List Nat → List Bool
  | c1 :: c2 :: c3 :: rest =>
    appendNumber ((c1 - 0x30) * 100 + (c2 - 0x30) * 10 + (c3 - 0x30)) 10
      ++ numericEncodeData rest
  | [c1, c2] => appendNumber ((c1 - 0x30) * 10 + (c2 - 0x30)) 7
  | [c1] => appendNumber (c1 - 0x30) 3
  | [] => []

/-- `AlphanumericDataEncoder::convert_alphanumeric` (`encoding.rs`); the
`panic!()` arm is modelled as 0 and unreachable for detected alphanumeric
payloads. -/
def convertAlphanumeric (c : Nat) : Nat :=
  match c with
  | 48 => 0
  | 49 => 1
  | 50 => 2
  | 51 => 3
  | 52 => 4
  | 53 => 5
  | 54 => 6
  | 55 => 7
  | 56 => 8
  | 57 => 9
  | 65 => 10
  | 66 => 11
  | 67 => 12
  | 68 => 13
  | 69 => 14
  | 70 => 15
  | 71 => 16
  | 72 => 17
  | 73 => 18
  | 74 => 19
  | 75 => 20
  | 76 => 21
  | 77 => 22
  | 78 => 23
  | 79 => 24
  | 80 => 25
  | 81 => 26
  | 82 => 27
  | 83 => 28
  | 84 => 29
  | 85 => 30
  | 86 => 31
  | 87 => 32
  | 88 => 33
  | 89 => 34
  | 90 => 35
  | 32 => 36
  | 36 => 37
  | 37 => 38
  | 42 => 39
  | 43 => 40
  | 45 => 41
  | 46 => 42
  | 47 => 43
  | 58 => 44
  | _ => 0

/-- `AlphanumericDataEncoder::encode_data` (`encoding.rs`): pairs in 11 bits
as `45*c1 + c2`, a trailing single character in 6 bits. -/
def alphanumericEncodeData : List Nat → List Bool
  | c1 :: c2 :: rest =>
    appendNumber (45 * convertAlphanumeric c1 + convertAlphanumeric c2) 11
      ++ alphanumericEncodeData rest
  | [c1] => appendNumber (convertAlphanumeric c1) 6
  | [] => []

/-- `Iso8859_1DataEncoder::encode_data` (`encoding.rs`): one 8-bit codeword
per character (also used for the UTF-8 byte stream of the Unicode encoder). -/
def isoEncodeData : List Nat → List Bool
  | [] => []
  | c :: rest => appendNumber c 8 ++ isoEncodeData rest

/-- Mode indicator, character-count indicator and payload of each encoder
(`encode_mode_indicator`, `encode_character_count_indicator`, `encode_data`
in `encoding.rs`). -/
def encodePrefix (cs : CharacterSet) (v : Version) (text : List Nat) : List Bool :=
  match cs with
  | .Numeric =>
    [false, false, false, true]
      ++ appendNumber (byteLen text) (v.characterCountIndicatorBitLength .Numeric)
      ++ numericEncodeData text
  | .Alphanumeric =>
    [false, false, true, false]
      ++ appendNumber (byteLen text) (v.characterCountIndicatorBitLength .Alphanumeric)
      ++ alphanumericEncodeData text
  | .Iso8859_1 =>
    [false, true, false, false]
      ++ appendNumber (byteLen text) (v.characterCountIndicatorBitLength .Byte)
      ++ isoEncodeData text
  | .Unicode =>
    ([false, true, true, true] ++ appendNumber 26 8 ++ [false, true, false, false])
      ++ appendNumber (byteLen text) (v.characterCountIndicatorBitLength .Byte)
      ++ isoEncodeData (text.flatMap utf8Bytes)

/-- `NumericDataEncoder::encode` (`encoding.rs`): prefix, terminator and
padding; `none` models a panic inside the padding stage. -/
def numericEncode (v : Version) (e : ErrorCorrectionLevel) (text : List Nat) :
    Option (List Bool) :=
  terminatorAndPadding (v.dataCodewordBitLen e) (encodePrefix .Numeric v text)

/-- `AlphanumericDataEncoder::encode` (`encoding.rs`). -/
def alphanumericEncode (v : Version) (e : ErrorCorrectionLevel) (text : List Nat) :
    Option (List Bool) :=
  terminatorAndPadding (v.dataCodewordBitLen e) (encodePrefix .Alphanumeric v text)

/-- `Iso8859_1DataEncoder::encode` (`encoding.rs`). -/
def iso8859_1Encode (v : Version) (e : ErrorCorrectionLevel) (text : List Nat) :
    Option (List Bool) :=
  terminatorAndPadding (v.dataCodewordBitLen e) (encodePrefix .Iso8859_1 v text)

/-- `UnicodeDataEncoder::encode` (`encoding.rs`). -/
def unicodeEncode (v : Version) (e : ErrorCorrectionLevel) (text : List Nat) :
    Option (List Bool) :=
  terminatorAndPadding (v.dataCodewordBitLen e) (encodePrefix .Unicode v text)

/-- The encoder dispatch of `encode_text` (`encoding.rs`). -/
def encodeFor (cs : CharacterSet) (v : Version) (e : ErrorCorrectionLevel) (text : List Nat) :
    Option (List Bool) :=
  match cs with
  | .Numeric => numericEncode v e text
  | .Alphanumeric => alphanumericEncode v e text
  | .Iso8859_1 => iso8859_1Encode v e text
  | .Unicode => unicodeEncode v e text

/-- `enum VersionRestriction` (`encoding.rs`). -/
inductive VersionRestriction where
  | MaxVersion (v : Version)
  | SpecificVersion (v : Version)
deriving DecidableEq

/-- `VersionRestriction::to_version` (`encoding.rs`). -/
def VersionRestriction.toVersion : VersionRestriction → Version
  | .MaxVersion v => v
  | .SpecificVersion v => v

/-- `enum ErrorCorrectionRestriction` (`encoding.rs`). -/
inductive ErrorCorrectionRestriction where
  | MinErrorCorrection (e : ErrorCorrectionLevel)
  | SpecificErrorCorrection (e : ErrorCorrectionLevel)
deriving DecidableEq

/-- `ErrorCorrectionRestriction::to_error_correction` (`encoding.rs`). -/
def ErrorCorrectionRestriction.toErrorCorrection :
    ErrorCorrectionRestriction → ErrorCorrectionLevel
  | .MinErrorCorrection e => e
  | .SpecificErrorCorrection e => e

/-- One pass of the ECC-raising `while let` loop of `encode_text`
(`encoding.rs`), with fuel bounding the iteration count; the `increment`
chain `Low → Medium → Quartile → High` ends after at most 3 steps, so fuel 3
gives exactly the loop's behavior. -/
def selectEccGo (maxVersion : Version) (bitLen : Nat) :
    Nat → ErrorCorrectionLevel → ErrorCorrectionLevel
  | 0, e => e
  | fuel + 1, e =>
    match e.increment with
    | some e2 =>
      if maxVersion.dataCodewordBitLen e2 ≥ bitLen then selectEccGo maxVersion bitLen fuel e2
      else e
    | none => e

/-- The ECC-raising `while let` loop of `encode_text` (`encoding.rs`):
increment the level while the payload still fits at `maxVersion`. -/
def selectEccLoop (maxVersion : Version) (bitLen : Nat) (e : ErrorCorrectionLevel) :
    ErrorCorrectionLevel :=
  selectEccGo maxVersion bitLen 3 e

/-- The version-lowering `while let` loop of `encode_text` (`encoding.rs`)
on the version number: `decrement` yields `n - 1` while `n > 1`, and the
loop keeps the lower version while the payload still fits at the selected
ECC. -/
def selectVersionAux (bitLen : Nat) (e : ErrorCorrectionLevel) : Nat → Nat
  | 0 => 0
  | 1 => 1
  | n + 2 =>
    if (Version.mk (n + 1)).dataCodewordBitLen e ≥ bitLen then selectVersionAux bitLen e (n + 1)
    else n + 2

/-- The version-lowering `while let` loop of `encode_text` (`encoding.rs`):
decrement the version while the payload still fits at the selected ECC. -/
def selectVersionLoop (bitLen : Nat) (e : ErrorCorrectionLevel) (v : Version) : Version :=
  ⟨selectVersionAux bitLen e v.version⟩

/-- The error-correction level selected by `encode_text` (`encoding.rs`). -/
def selectedEcc (vr : VersionRestriction) (er : ErrorCorrectionRestriction)
    (text : List Nat) : ErrorCorrectionLevel :=
  match er with
  | .MinErrorCorrection e =>
    selectEccLoop vr.toVersion
      (calculateEncodedDataBitLength (byteLen text) vr.toVersion (detectCharacterSet text)) e
  | .SpecificErrorCorrection e => e

/-- The version selected by `encode_text` (`encoding.rs`). -/
def selectedVersion (vr : VersionRestriction) (er : ErrorCorrectionRestriction)
    (text : List Nat) : Version :=
  match vr with
  | .MaxVersion v =>
    selectVersionLoop
      (calculateEncodedDataBitLength (byteLen text) vr.toVersion (detectCharacterSet text))
      (selectedEcc vr er text) v
  | .SpecificVersion v => v

/-- Outcome of `encode_text` (`encoding.rs`): `ok` is `Ok(EncodedData)`,
`err` is the `Err(())` of the capacity check, and `panicked` is a Rust panic
inside the selected encoder (terminator overshoot / padding
`unreachable!()`). -/
inductive EncodeOutcome where
  | ok (version : Version) (errorCorrection : ErrorCorrectionLevel) (buffer : List Bool)
  | err
  | panicked
deriving DecidableEq

/-- `encode_text` (`encoding.rs`). -/
def encodeText (vr : VersionRestriction) (er : ErrorCorrectionRestriction)
    (text : List Nat) : EncodeOutcome :=
  let characterSet := detectCharacterSet text
  let bitLen := calculateEncodedDataBitLength (byteLen text) vr.toVersion characterSet
  if vr.toVersion.dataCodewordBitLen er.toErrorCorrection < bitLen then .err
  else
    match encodeFor characterSet (selectedVersion vr er text) (selectedEcc vr er text) text with
    | some buffer => .ok (selectedVersion vr er text) (selectedEcc vr er text) buffer
    | none => .panicked

/-- Whether an ECC level is allowed by the restriction (claim C3's words:
`Min` allows that level and any stronger one, `Specific` only itself). -/
def eccAllowed (er : ErrorCorrectionRestriction) (e : ErrorCorrectionLevel) : Prop :=
  match er with
  | .MinErrorCorrection e0 => e0.rank ≤ e.rank
  | .SpecificErrorCorrection e0 => e = e0

/-- Whether a version number is allowed by the restriction (claim C3's
words: `Max` allows 1 up to the bound, `Specific` only itself). -/
def versionAllowed (vr : VersionRestriction) (n : Nat) : Prop :=
  match vr with
  | .MaxVersion v => 1 ≤ n ∧ n ≤ v.version
  | .SpecificVersion v => n = v.version

/-- The payload fits at `(v, e)`: the length-formula bit count at `v` is at
most `8 * data_codeword_count(v, e)`. -/
def fitsAt (text : List Nat) (v : Version) (e : ErrorCorrectionLevel) : Prop :=
  calculateEncodedDataBitLength (byteLen text) v (detectCharacterSet text)
    ≤ v.dataCodewordBitLen e

/-- Claim C3's description of the selected ECC: the highest level allowed by
the restriction at which the payload still fits at the upper-bound
version. -/
def HighestFittingEcc (vr : VersionRestriction) (er : ErrorCorrectionRestriction)
    (text : List Nat) (e : ErrorCorrectionLevel) : Prop :=
  eccAllowed er e ∧ fitsAt text vr.toVersion e
    ∧ ∀ e2, eccAllowed er e2 → fitsAt text vr.toVersion e2 → e2.rank ≤ e.rank

/-- Claim C3's description of the selected version: the smallest version
allowed by the restriction at which the payload still fits at the selected
ECC level. -/
def SmallestFittingVersion (vr : VersionRestriction) (text : List Nat)
    (e : ErrorCorrectionLevel) (v : Version) : Prop :=
  versionAllowed vr v.version ∧ fitsAt text v e
    ∧ ∀ n, versionAllowed vr n → fitsAt text ⟨n⟩ e → v.version ≤ n

/-- The amended claim C3, as one proposition: the capacity check fails
exactly when the formula bit count exceeds the capacity at the upper-bound
version and minimum ECC; otherwise the selected pair is the highest fitting
ECC with the smallest fitting version, and encoding succeeds with that pair
unless the encoded prefix has exactly `capacity - 4` bits, in which case the
padding stage panics. -/
def C3Conclusion (vr : VersionRestriction) (er : ErrorCorrectionRestriction)
    (text : List Nat) : Prop :=
  (encodeText vr er text = .err
    ↔ vr.toVersion.dataCodewordBitLen er.toErrorCorrection
        < calculateEncodedDataBitLength (byteLen text) vr.toVersion (detectCharacterSet text))
  ∧ (calculateEncodedDataBitLength (byteLen text) vr.toVersion (detectCharacterSet text)
        ≤ vr.toVersion.dataCodewordBitLen er.toErrorCorrection →
      HighestFittingEcc vr er text (selectedEcc vr er text)
      ∧ SmallestFittingVersion vr text (selectedEcc vr er text) (selectedVersion vr er text)
      ∧ ((encodePrefix (detectCharacterSet text) (selectedVersion vr er text) text).length
            = (selectedVersion vr er text).dataCodewordBitLen (selectedEcc vr er text) - 4 →
          encodeText vr er text = .panicked)
      ∧ ((encodePrefix (detectCharacterSet text) (selectedVersion vr er text) text).length
            ≠ (selectedVersion vr er text).dataCodewordBitLen (selectedEcc vr er text) - 4 →
          ∃ buffer, encodeText vr er text
            = .ok (selectedVersion vr er text) (selectedEcc vr er text) buffer))

/-- The amended claim C1, as one proposition over the capacity `max` and the
encoded prefix `pre` (mode indicator, character count, payload): when
`pre.length + 4` is not byte-aligned, or fewer than 4 bits remain, the
output is exactly as the original claim describes; when `pre.length + 4` is
byte-aligned and at least 4 bits remain, the terminator writes 12 zero bits
(4 terminator bits plus a full extra zero byte), which overshoots `max` and
panics exactly when `pre.length = max - 4`; any successful output has
exactly `max` bits. -/
def C1Conclusion (max : Nat) (pre : List Bool) : Prop :=
  ((pre.length + 4) % 8 ≠ 0 ∨ max - pre.length < 4 →
    terminatorAndPadding max pre = some (specTerminatorAndPadding max pre))
  ∧ ((pre.length + 4) % 8 = 0 ∧ 4 ≤ max - pre.length →
      (pre.length = max - 4 → terminatorAndPadding max pre = none)
      ∧ (pre.length ≠ max - 4 →
          terminatorAndPadding max pre
            = some (pre ++ zeros 12 ++ altPadBytes ((max - (pre.length + 12)) / 8))))
  ∧ (∀ out, terminatorAndPadding max pre = some out → out.length = max)

/-- The nine-digit payload `"012345678"`, whose encoded prefix has
`44 ≡ 4 (mod 8)` bits at version 1-M: the terminator then appends 12 zero
bits instead of the claimed 4. -/
def numericCexDigits : List Nat := [0x30, 0x31, 0x32, 0x33, 0x34, 0x35, 0x36, 0x37, 0x38]

/-- Seventeen `'a'` characters: an ISO-8859-1 payload whose encoded prefix
has exactly `capacity - 4 = 148` bits at version 1-L, making the terminator
overshoot and the padding stage panic. -/
def isoCexText : List Nat := List.replicate 17 0x61

/-- The eight-digit payload `"01234567"` of the repository's own tests. -/
def numericTestDigits : List Nat := [0x30, 0x31, 0x32, 0x33, 0x34, 0x35, 0x36, 0x37]

/-- A small concrete matrix with one filled module, used as a witness input. -/
def smallMatrix : Matrix :=
  { size := 2
    data := fun x y => if x = 0 ∧ y = 0 then .Filled .Black else .Empty }

/-- A small concrete all-black QR code of logical size 1, used as a witness
input for the draw iterator. -/
def smallQrCode : QrCode :=
  { size := 1
    data := fun _ _ => .Black }

-- ===== Theorems =====

/-- `data_codeword_bit_len` is always a multiple of 8. -/
theorem dataCodewordBitLen_mod_eight (v : Version) (e : ErrorCorrectionLevel) :
    v.dataCodewordBitLen e % 8 = 0 := by
  simp [Version.dataCodewordBitLen, Nat.mul_mod_left]

/-- `append_number` appends exactly `bitLen` bits. -/
theorem appendNumber_length (n w : Nat) : (appendNumber n w).length = w := by
  simp [appendNumber]

/-- `zeros` has the stated length. -/
theorem zeros_length (n : Nat) : (zeros n).length = n := by
  simp [zeros]

/-- Concatenating zero runs. -/
theorem zeros_append (a b : Nat) : zeros a ++ zeros b = zeros (a + b) := by
  simp [zeros, ← List.replicate_add]

/-- The 16-bit padding word `0xEC11` is the byte `0xEC` followed by the byte
`0x11`. -/
theorem ec11_split :
    appendNumber 0b1110110000010001 16
      = appendNumber 0b11101100 8 ++ appendNumber 0b00010001 8 := by
  decide

/-- `altPadBytes k` has `8 * k` bits. -/
theorem altPadBytes_length (k : Nat) : (altPadBytes k).length = 8 * k := by
  induction k using altPadBytes.induct with
  | case1 => rfl
  | case2 => rfl
  | case3 n ih =>
    simp only [altPadBytes, List.length_append, appendNumber_length, ih]
    omega

/-- The padding loop succeeds exactly on byte-aligned remainders, producing
the alternating `0xEC`/`0x11` byte sequence. -/
theorem paddingBits_eq (d : Nat) :
    paddingBits d = if d % 8 = 0 then some (altPadBytes (d / 8)) else none := by
  induction d using Nat.strong_induction_on with
  | _ d ih =>
    rw [paddingBits.eq_def]
    split
    · rfl
    · rfl
    · rename_i dd
      show (match paddingBits dd with
            | some tail => some (appendNumber 0b1110110000010001 16 ++ tail)
            | none => none)
          = if (dd + 16) % 8 = 0 then some (altPadBytes ((dd + 16) / 8)) else none
      rw [ih dd (by omega)]
      have h16 : (dd + 16) % 8 = dd % 8 := by omega
      have hdiv : (dd + 16) / 8 = dd / 8 + 2 := by omega
      rw [h16, hdiv]
      by_cases h8 : dd % 8 = 0
      · simp only [h8, if_pos]
        rw [altPadBytes, ec11_split, List.append_assoc]
      · simp [h8]
    · rename_i hnot0 hnot8 hnot16
      have h0 : d ≠ 0 := hnot0
      have h8 : d ≠ 8 := hnot8
      have hlt : d < 16 := by
        by_contra hge
        exact hnot16 (d - 16) (by omega)
      have hmod : d % 8 ≠ 0 := by omega
      rw [if_neg hmod]

/-- Unfolding `terminatorAndPadding` to explicit lengths. -/
theorem terminatorAndPadding_eq (max : Nat) (pre : List Bool) :
    terminatorAndPadding max pre
      = if max < pre.length + encodeTerminatorLen max pre.length then none
        else
          match paddingBits (max - (pre.length + encodeTerminatorLen max pre.length)) with
          | some padding =>
            some (pre ++ zeros (encodeTerminatorLen max pre.length) ++ padding)
          | none => none := by
  unfold terminatorAndPadding
  simp only [List.length_append, zeros_length]

/-- The overshoot case: when the terminator passes `max`, the padding stage
panics. -/
theorem terminatorAndPadding_none (max : Nat) (pre : List Bool)
    (h : max < pre.length + encodeTerminatorLen max pre.length) :
    terminatorAndPadding max pre = none := by
  rw [terminatorAndPadding_eq, if_pos h]

/-- The aligned success case of the terminator-and-padding stage. -/
theorem terminatorAndPadding_some (max : Nat) (pre : List Bool)
    (hle : ¬ max < pre.length + encodeTerminatorLen max pre.length)
    (hmod : (max - (pre.length + encodeTerminatorLen max pre.length)) % 8 = 0) :
    terminatorAndPadding max pre
      = some (pre ++ zeros (encodeTerminatorLen max pre.length)
          ++ altPadBytes ((max - (pre.length + encodeTerminatorLen max pre.length)) / 8)) := by
  rw [terminatorAndPadding_eq, if_neg hle, paddingBits_eq, if_pos hmod]

/-- Any successful terminator-and-padding output has exactly `max` bits. -/
theorem terminatorAndPadding_some_length (max : Nat) (pre out : List Bool)
    (h : terminatorAndPadding max pre = some out) : out.length = max := by
  rw [terminatorAndPadding_eq] at h
  split at h
  · exact absurd h (by simp)
  · rename_i hle
    split at h
    · rename_i padding hpad
      simp only [Option.some.injEq] at h
      subst h
      have hp := paddingBits_eq (max - (pre.length + encodeTerminatorLen max pre.length))
      rw [hpad] at hp
      split at hp
      · rename_i hmod
        simp only [Option.some.injEq] at hp
        subst hp
        simp only [List.length_append, zeros_length, altPadBytes_length]
        omega
      · exact absurd hp (by simp)
    · exact absurd h (by simp)

/-- `specTerminatorAndPadding` with its `let`s unfolded. -/
theorem specTerminatorAndPadding_eq (max : Nat) (pre : List Bool) :
    specTerminatorAndPadding max pre
      = pre ++ zeros (min 4 (max - pre.length))
          ++ zeros ((8 - (pre.length + min 4 (max - pre.length)) % 8) % 8)
          ++ altPadBytes ((max - (pre.length + min 4 (max - pre.length)
              + (8 - (pre.length + min 4 (max - pre.length)) % 8) % 8)) / 8) := rfl

/-- Core characterization of `encode_terminator` plus `encode_padding` for a
byte-aligned capacity. -/
theorem terminatorAndPadding_core (max : Nat) (pre : List Bool)
    (hmax8 : max % 8 = 0) (hlen : pre.length ≤ max) :
    C1Conclusion max pre := by
  refine ⟨?_, ?_, fun out hout => terminatorAndPadding_some_length max pre out hout⟩
  · intro hcase
    by_cases hlt : max - pre.length < 4
    · have ht : encodeTerminatorLen max pre.length = max - pre.length := by
        simp [encodeTerminatorLen, hlt]
      rw [terminatorAndPadding_some max pre (by omega) (by omega), ht,
        specTerminatorAndPadding_eq]
      have e1 : min 4 (max - pre.length) = max - pre.length := by omega
      simp only [e1]
      have e2 : (8 - (pre.length + (max - pre.length)) % 8) % 8 = 0 := by omega
      simp only [e2]
      have e3 : max - (pre.length + (max - pre.length)) = 0 := by omega
      have e4 : max - (pre.length + (max - pre.length) + 0) = 0 := by omega
      simp only [e3, e4]
      simp [zeros, altPadBytes]
    · have hr : (pre.length + 4) % 8 ≠ 0 := by
        rcases hcase with h | h
        · exact h
        · omega
      have ht : encodeTerminatorLen max pre.length = 4 + (8 - (pre.length + 4) % 8) := by
        simp [encodeTerminatorLen, hlt]
      have hterm : pre.length + encodeTerminatorLen max pre.length ≤ max := by
        rw [ht]
        omega
      rw [terminatorAndPadding_some max pre (by omega) (by rw [ht]; omega), ht,
        specTerminatorAndPadding_eq]
      have e1 : min 4 (max - pre.length) = 4 := by omega
      simp only [e1]
      have e2 : (8 - (pre.length + 4) % 8) % 8 = 8 - (pre.length + 4) % 8 := by omega
      simp only [e2]
      rw [← zeros_append]
      have e3 : max - (pre.length + 4 + (8 - (pre.length + 4) % 8))
          = max - (pre.length + (4 + (8 - (pre.length + 4) % 8))) := by omega
      simp only [e3, List.append_assoc]
  · rintro ⟨hr0, hge⟩
    have ht : encodeTerminatorLen max pre.length = 12 := by
      unfold encodeTerminatorLen
      rw [if_neg (by omega), hr0]
    constructor
    · intro hEq4
      exact terminatorAndPadding_none max pre (by rw [ht]; omega)
    · intro hne
      rw [terminatorAndPadding_some max pre (by rw [ht]; omega) (by rw [ht]; omega), ht]

/-- C1 counterexample: for the nine-digit numeric payload `"012345678"` at
version 1-M the encoder output differs from the claim's terminator/padding
description — the terminator writes 12 zero bits (an extra zero byte) where
the claim allows only 4 plus alignment (here 0). -/
theorem c1_counterexample :
    numericEncode ⟨1⟩ .Medium numericCexDigits
      = terminatorAndPadding ((Version.mk 1).dataCodewordBitLen .Medium)
          (encodePrefix .Numeric ⟨1⟩ numericCexDigits)
    ∧ terminatorAndPadding ((Version.mk 1).dataCodewordBitLen .Medium)
          (encodePrefix .Numeric ⟨1⟩ numericCexDigits)
      ≠ some (specTerminatorAndPadding ((Version.mk 1).dataCodewordBitLen .Medium)
          (encodePrefix .Numeric ⟨1⟩ numericCexDigits)) :=
  ⟨rfl, by decide⟩

/-- C1 amended: for every supported (version, ecc) pair and every encoded
prefix that fits the capacity `max = 8 * data_codeword_count`, the
terminator-and-padding stage behaves as the claim describes whenever
`bit_len + 4` is not already byte-aligned or fewer than 4 bits remain; when
`bit_len + 4` is byte-aligned and at least 4 bits remain it appends 12 zero
bits (an extra zero pad byte), panicking exactly when `bit_len = max - 4`;
every successful output is exactly `max` bits long. -/
theorem c1_terminator_padding_amended (v : Version) (e : ErrorCorrectionLevel)
    (h1 : 1 ≤ v.version) (h5 : v.version ≤ 5) (pre : List Bool)
    (hlen : pre.length ≤ v.dataCodewordBitLen e) :
    C1Conclusion (v.dataCodewordBitLen e) pre :=
  terminatorAndPadding_core (v.dataCodewordBitLen e) pre
    (dataCodewordBitLen_mod_eight v e) hlen

/-- Witness for C1's amended theorem at version 1-M with the eight-digit
test payload `"01234567"`. -/
theorem c1_terminator_padding_amended_witness :
    (1 ≤ (Version.mk 1).version ∧ (Version.mk 1).version ≤ 5
      ∧ (encodePrefix .Numeric ⟨1⟩ numericTestDigits).length
          ≤ (Version.mk 1).dataCodewordBitLen .Medium)
    ∧ C1Conclusion ((Version.mk 1).dataCodewordBitLen .Medium)
        (encodePrefix .Numeric ⟨1⟩ numericTestDigits) :=
  ⟨⟨by decide, by decide, by decide⟩,
    c1_terminator_padding_amended ⟨1⟩ .Medium (by decide) (by decide)
      (encodePrefix .Numeric ⟨1⟩ numericTestDigits) (by decide)⟩

/-- C2: the numeric segment encoder writes 3-digit groups in 10 bits and a
trailing pair in 7 bits, but writes a trailing single digit in 3 bits where
both the claim and the code's own `calculate_encoded_data_bit_length`
require 4: for the one-digit payload `"1"` the encoded prefix has 17 bits
while the formula yields 18. -/
theorem c2_numeric_trailing_digit :
    (numericEncodeData [0x30, 0x31, 0x32]).length = 10
    ∧ (numericEncodeData [0x30, 0x31]).length = 7
    ∧ (numericEncodeData [0x31]).length = 3
    ∧ calculateEncodedDataBitLength 1 ⟨1⟩ .Numeric = 18
    ∧ (encodePrefix .Numeric ⟨1⟩ [0x31]).length = 17
    ∧ (encodePrefix .Numeric ⟨1⟩ [0x31]).length
        ≠ calculateEncodedDataBitLength (byteLen [0x31]) ⟨1⟩ .Numeric := by
  refine ⟨?_, ?_, ?_, ?_, ?_, ?_⟩ <;> decide

/-- Capacity is antitone in the ECC level over the supported versions. -/
theorem dataCodewordBitLen_anti (v : Version) (h1 : 1 ≤ v.version) (h5 : v.version ≤ 5)
    (e e2 : ErrorCorrectionLevel) (h : e.rank ≤ e2.rank) :
    v.dataCodewordBitLen e2 ≤ v.dataCodewordBitLen e := by
  obtain ⟨n⟩ := v
  interval_cases n <;> cases e <;> cases e2 <;> revert h <;> decide

/-- Capacity is monotone in the version over the supported range. -/
theorem dataCodewordBitLen_mono_version (e : ErrorCorrectionLevel) (n n2 : Nat)
    (h1 : 1 ≤ n) (h2 : n ≤ n2) (h5 : n2 ≤ 5) :
    (Version.mk n).dataCodewordBitLen e ≤ (Version.mk n2).dataCodewordBitLen e := by
  have h5n : n ≤ 5 := le_trans h2 h5
  interval_cases n <;> interval_cases n2 <;> cases e <;> decide

/-- Every supported capacity is at least 8 bits. -/
theorem dataCodewordBitLen_ge8 (v : Version) (h1 : 1 ≤ v.version) (h5 : v.version ≤ 5)
    (e : ErrorCorrectionLevel) : 8 ≤ v.dataCodewordBitLen e := by
  obtain ⟨n⟩ := v
  interval_cases n <;> cases e <;> decide

/-- The length formula does not depend on the version within the supported
range (all character-count indicator widths agree on versions 1..=9). -/
theorem calcBits_version_const (len : Nat) (cs : CharacterSet) (n n2 : Nat)
    (h1 : 1 ≤ n) (h5 : n ≤ 5) (h12 : 1 ≤ n2) (h52 : n2 ≤ 5) :
    calculateEncodedDataBitLength len ⟨n⟩ cs = calculateEncodedDataBitLength len ⟨n2⟩ cs := by
  interval_cases n <;> interval_cases n2 <;> cases cs <;> rfl

/-- Specification of the ECC-raising loop: starting from a fitting level it
returns a fitting level at least as strong, and no allowed fitting level is
stronger. -/
theorem selectEccLoop_spec (u : Version) (h1 : 1 ≤ u.version) (h5 : u.version ≤ 5)
    (bits : Nat) (e0 : ErrorCorrectionLevel) (h0 : bits ≤ u.dataCodewordBitLen e0) :
    e0.rank ≤ (selectEccLoop u bits e0).rank
    ∧ bits ≤ u.dataCodewordBitLen (selectEccLoop u bits e0)
    ∧ ∀ e2, e0.rank ≤ e2.rank → bits ≤ u.dataCodewordBitLen e2 →
        e2.rank ≤ (selectEccLoop u bits e0).rank := by
  have aMQ := dataCodewordBitLen_anti u h1 h5 .Medium .Quartile (by decide)
  have aQH := dataCodewordBitLen_anti u h1 h5 .Quartile .High (by decide)
  cases e0 with
  | Low =>
    by_cases hM : u.dataCodewordBitLen .Medium ≥ bits
    · by_cases hQ : u.dataCodewordBitLen .Quartile ≥ bits
      · by_cases hH : u.dataCodewordBitLen .High ≥ bits
        · have hres : selectEccLoop u bits .Low = .High := by
            simp [selectEccLoop, selectEccGo, ErrorCorrectionLevel.increment, hM, hQ, hH]
          rw [hres]
          exact ⟨by decide, hH, fun e2 _ _ => by cases e2 <;> decide⟩
        · have hres : selectEccLoop u bits .Low = .Quartile := by
            simp [selectEccLoop, selectEccGo, ErrorCorrectionLevel.increment, hM, hQ, hH]
          rw [hres]
          refine ⟨by decide, hQ, ?_⟩
          intro e2 _ hf2
          cases e2 <;> simp [ErrorCorrectionLevel.rank] <;> omega
      · have hres : selectEccLoop u bits .Low = .Medium := by
          simp [selectEccLoop, selectEccGo, ErrorCorrectionLevel.increment, hM, hQ]
        rw [hres]
        refine ⟨by decide, hM, ?_⟩
        intro e2 _ hf2
        cases e2 <;> simp [ErrorCorrectionLevel.rank] <;> omega
    · have hres : selectEccLoop u bits .Low = .Low := by
        simp [selectEccLoop, selectEccGo, ErrorCorrectionLevel.increment, hM]
      rw [hres]
      refine ⟨by decide, h0, ?_⟩
      intro e2 _ hf2
      cases e2 <;> simp [ErrorCorrectionLevel.rank] <;> omega
  | Medium =>
    by_cases hQ : u.dataCodewordBitLen .Quartile ≥ bits
    · by_cases hH : u.dataCodewordBitLen .High ≥ bits
      · have hres : selectEccLoop u bits .Medium = .High := by
          simp [selectEccLoop, selectEccGo, ErrorCorrectionLevel.increment, hQ, hH]
        rw [hres]
        exact ⟨by decide, hH, fun e2 _ _ => by cases e2 <;> decide⟩
      · have hres : selectEccLoop u bits .Medium = .Quartile := by
          simp [selectEccLoop, selectEccGo, ErrorCorrectionLevel.increment, hQ, hH]
        rw [hres]
        refine ⟨by decide, hQ, ?_⟩
        intro e2 _ hf2
        cases e2 <;> simp [ErrorCorrectionLevel.rank] <;> omega
    · have hres : selectEccLoop u bits .Medium = .Medium := by
        simp [selectEccLoop, selectEccGo, ErrorCorrectionLevel.increment, hQ]
      rw [hres]
      refine ⟨by decide, h0, ?_⟩
      intro e2 hr2 hf2
      cases e2 <;> simp [ErrorCorrectionLevel.rank] <;> simp [ErrorCorrectionLevel.rank] at hr2 <;> omega
  | Quartile =>
    by_cases hH : u.dataCodewordBitLen .High ≥ bits
    · have hres : selectEccLoop u bits .Quartile = .High := by
        simp [selectEccLoop, selectEccGo, ErrorCorrectionLevel.increment, hH]
      rw [hres]
      exact ⟨by decide, hH, fun e2 _ _ => by cases e2 <;> decide⟩
    · have hres : selectEccLoop u bits .Quartile = .Quartile := by
        simp [selectEccLoop, selectEccGo, ErrorCorrectionLevel.increment, hH]
      rw [hres]
      refine ⟨by decide, h0, ?_⟩
      intro e2 hr2 hf2
      cases e2 <;> simp [ErrorCorrectionLevel.rank] <;> simp [ErrorCorrectionLevel.rank] at hr2 <;> omega
  | High =>
    have hres : selectEccLoop u bits .High = .High := by
      simp [selectEccLoop, selectEccGo, ErrorCorrectionLevel.increment]
    rw [hres]
    refine ⟨le_refl _, h0, ?_⟩
    intro e2 _ _
    cases e2 <;> decide

/-- Specification of the version-lowering loop: starting from a fitting
version it returns the smallest version at or below the start at which the
payload still fits. -/
theorem selectVersionAux_spec (bits : Nat) (e : ErrorCorrectionLevel) :
    ∀ n, 1 ≤ n → n ≤ 5 → bits ≤ (Version.mk n).dataCodewordBitLen e →
      1 ≤ selectVersionAux bits e n
      ∧ selectVersionAux bits e n ≤ n
      ∧ bits ≤ (Version.mk (selectVersionAux bits e n)).dataCodewordBitLen e
      ∧ ∀ m, 1 ≤ m → m ≤ n → bits ≤ (Version.mk m).dataCodewordBitLen e →
          selectVersionAux bits e n ≤ m := by
  intro n
  induction n using Nat.strong_induction_on with
  | _ n ih =>
    intro h1 h5 h0
    match n, h1 with
    | 1, _ =>
      have hres : selectVersionAux bits e 1 = 1 := rfl
      rw [hres]
      exact ⟨le_refl 1, le_refl 1, h0, fun m hm1 _ _ => hm1⟩
    | (m + 2), _ =>
      by_cases hfit : (Version.mk (m + 1)).dataCodewordBitLen e ≥ bits
      · have hres : selectVersionAux bits e (m + 2) = selectVersionAux bits e (m + 1) := by
          simp [selectVersionAux, hfit]
        have hspec := ih (m + 1) (by omega) (by omega) (by omega) hfit
        rw [hres]
        refine ⟨hspec.1, by omega, hspec.2.2.1, ?_⟩
        intro k hk1 hk2 hkfit
        by_cases hk : k ≤ m + 1
        · exact hspec.2.2.2 k hk1 hk hkfit
        · have := hspec.2.1
          omega
      · have hres : selectVersionAux bits e (m + 2) = m + 2 := by
          simp [selectVersionAux, hfit]
        rw [hres]
        refine ⟨by omega, le_refl _, h0, ?_⟩
        intro k hk1 hk2 hkfit
        by_contra hlt
        have hkm : k ≤ m + 1 := by omega
        have := dataCodewordBitLen_mono_version e k (m + 1) hk1 hkm (by omega)
        omega

/-- Character-set detection returns `Numeric` only for all-digit payloads. -/
theorem detect_numeric_all (text : List Nat) (h : detectCharacterSet text = .Numeric) :
    text.all isCharNumeric = true := by
  unfold detectCharacterSet at h
  split_ifs at h <;> simp_all

/-- Character-set detection returns `Alphanumeric` only for payloads in the
45-character table. -/
theorem detect_alphanumeric_all (text : List Nat)
    (h : detectCharacterSet text = .Alphanumeric) :
    text.all isCharAlphanumeric = true := by
  unfold detectCharacterSet at h
  split_ifs at h <;> simp_all

/-- Every code point takes at least one UTF-8 byte. -/
theorem utf8Bytes_length_pos (c : Nat) : 1 ≤ (utf8Bytes c).length := by
  unfold utf8Bytes
  split_ifs <;> simp

/-- ASCII code points take exactly one UTF-8 byte. -/
theorem utf8Bytes_ascii (c : Nat) (h : c < 128) : utf8Bytes c = [c] := by
  unfold utf8Bytes
  rw [if_pos h]

/-- For an all-ASCII payload the byte length equals the character count. -/
theorem byteLen_of_ascii (text : List Nat) (h : ∀ c ∈ text, c < 128) :
    byteLen text = text.length := by
  induction text with
  | nil => rfl
  | cons c rest ih =>
    have hc : c < 128 := h c (List.mem_cons_self c rest)
    have hr : byteLen rest = rest.length := ih fun d hd => h d (List.mem_cons_of_mem c hd)
    simp [byteLen, utf8Bytes_ascii c hc]
    simp [byteLen] at hr
    omega

/-- The character count never exceeds the byte length. -/
theorem length_le_byteLen (text : List Nat) : text.length ≤ byteLen text := by
  induction text with
  | nil => simp [byteLen]
  | cons c rest ih =>
    have := utf8Bytes_length_pos c
    simp [byteLen] at ih ⊢
    omega

/-- The UTF-8 byte stream of a payload has exactly `byteLen` bytes. -/
theorem flatMap_utf8_length (text : List Nat) :
    (text.flatMap utf8Bytes).length = byteLen text := by
  induction text with
  | nil => rfl
  | cons c rest ih =>
    simp [byteLen, List.flatMap_cons] at ih ⊢
    omega

/-- Numeric digits are ASCII. -/
theorem numeric_all_ascii (text : List Nat) (h : text.all isCharNumeric = true) :
    ∀ c ∈ text, c < 128 := by
  intro c hc
  have := (List.all_eq_true.mp h) c hc
  simp [isCharNumeric] at this
  omega

/-- Alphanumeric-table characters are ASCII. -/
theorem alphanumeric_all_ascii (text : List Nat) (h : text.all isCharAlphanumeric = true) :
    ∀ c ∈ text, c < 128 := by
  intro c hc
  have := (List.all_eq_true.mp h) c hc
  simp [isCharAlphanumeric] at this
  rcases this with h1 | h1 | h1 | h1 | h1 | h1 | h1 | h1 | h1 | h1 <;> omega

/-- Exact bit length of the numeric payload encoder: 10 bits per 3-digit
group, 7 for a trailing pair, 3 for a trailing single digit. -/
theorem numericEncodeData_length (l : List Nat) :
    (numericEncodeData l).length
      = 10 * (l.length / 3)
        + (if l.length % 3 = 1 then 3 else if l.length % 3 = 2 then 7 else 0) := by
  induction l using numericEncodeData.induct with
  | case1 c1 c2 c3 rest ih =>
    simp only [numericEncodeData, List.length_append, appendNumber_length, ih,
      List.length_cons]
    split_ifs <;> omega
  | case2 c1 c2 =>
    simp only [numericEncodeData, appendNumber_length, List.length_cons, List.length_nil]
    split_ifs <;> omega
  | case3 c1 =>
    simp only [numericEncodeData, appendNumber_length, List.length_cons, List.length_nil]
    split_ifs <;> omega
  | case4 => rfl

/-- Exact bit length of the alphanumeric payload encoder: 11 bits per pair,
6 for a trailing single character. -/
theorem alphanumericEncodeData_length (l : List Nat) :
    (alphanumericEncodeData l).length = 11 * (l.length / 2) + 6 * (l.length % 2) := by
  induction l using alphanumericEncodeData.induct with
  | case1 c1 c2 rest ih =>
    simp only [alphanumericEncodeData, List.length_append, appendNumber_length, ih,
      List.length_cons]
    omega
  | case2 c1 =>
    simp only [alphanumericEncodeData, appendNumber_length, List.length_cons, List.length_nil]
  | case3 => rfl

/-- Exact bit length of the byte payload encoder: 8 bits per item. -/
theorem isoEncodeData_length (l : List Nat) : (isoEncodeData l).length = 8 * l.length := by
  induction l with
  | nil => rfl
  | cons c rest ih =>
    simp only [isoEncodeData, List.length_append, appendNumber_length, ih, List.length_cons]
    omega

/-- The encoded prefix never exceeds the length-formula bit count (for the
numeric encoder it is one bit shorter when the digit count is 1 mod 3, and
for the byte encoder it is shorter by 8 bits per non-ASCII character). -/
theorem encodePrefix_length_le (v : Version) (text : List Nat) :
    (encodePrefix (detectCharacterSet text) v text).length
      ≤ calculateEncodedDataBitLength (byteLen text) v (detectCharacterSet text) := by
  rcases hdet : detectCharacterSet text with _ | _ | _ | _
  · have hall := detect_numeric_all text hdet
    have hlen : byteLen text = text.length := byteLen_of_ascii text (numeric_all_ascii text hall)
    simp only [encodePrefix, calculateEncodedDataBitLength, CharacterSet.toEncodingMode,
      List.length_append, List.length_cons, List.length_nil, appendNumber_length,
      numericEncodeData_length, hlen]
    have hm : text.length % 3 = 0 ∨ text.length % 3 = 1 ∨ text.length % 3 = 2 := by omega
    rcases hm with hm | hm | hm <;> simp [hm] <;> omega
  · have hall := detect_alphanumeric_all text hdet
    have hlen : byteLen text = text.length :=
      byteLen_of_ascii text (alphanumeric_all_ascii text hall)
    simp only [encodePrefix, calculateEncodedDataBitLength, CharacterSet.toEncodingMode,
      List.length_append, List.length_cons, List.length_nil, appendNumber_length,
      alphanumericEncodeData_length, hlen]
    omega
  · have hlen := length_le_byteLen text
    simp only [encodePrefix, calculateEncodedDataBitLength, CharacterSet.toEncodingMode,
      List.length_append, List.length_cons, List.length_nil, appendNumber_length,
      isoEncodeData_length]
    omega
  · have hlen := flatMap_utf8_length text
    simp only [encodePrefix, calculateEncodedDataBitLength, CharacterSet.toEncodingMode,
      List.length_append, List.length_cons, List.length_nil, appendNumber_length,
      isoEncodeData_length, hlen]
    omega

/-- The encoder dispatch always runs terminator-and-padding on the encoded
prefix. -/
theorem encodeFor_eq (cs : CharacterSet) (v : Version) (e : ErrorCorrectionLevel)
    (text : List Nat) :
    encodeFor cs v e text
      = terminatorAndPadding (v.dataCodewordBitLen e) (encodePrefix cs v text) := by
  cases cs <;> rfl

/-- The ECC level selected by `encode_text` is the highest allowed fitting
level. -/
theorem selectedEcc_spec (vr : VersionRestriction) (er : ErrorCorrectionRestriction)
    (text : List Nat) (h1 : 1 ≤ vr.toVersion.version) (h5 : vr.toVersion.version ≤ 5)
    (hfit : calculateEncodedDataBitLength (byteLen text) vr.toVersion (detectCharacterSet text)
      ≤ vr.toVersion.dataCodewordBitLen er.toErrorCorrection) :
    HighestFittingEcc vr er text (selectedEcc vr er text) := by
  cases er with
  | SpecificErrorCorrection e =>
    refine ⟨rfl, hfit, ?_⟩
    intro e2 ha _
    have he : e2 = e := ha
    have hsel : selectedEcc vr (.SpecificErrorCorrection e) text = e := rfl
    rw [he, hsel]
  | MinErrorCorrection e0 =>
    have hs := selectEccLoop_spec vr.toVersion h1 h5
      (calculateEncodedDataBitLength (byteLen text) vr.toVersion (detectCharacterSet text))
      e0 hfit
    exact ⟨hs.1, hs.2.1, hs.2.2⟩

/-- The version selected by `encode_text` is the smallest allowed version at
which the payload still fits at the selected ECC level. -/
theorem selectedVersion_spec (vr : VersionRestriction) (er : ErrorCorrectionRestriction)
    (text : List Nat) (h1 : 1 ≤ vr.toVersion.version) (h5 : vr.toVersion.version ≤ 5)
    (hfit : calculateEncodedDataBitLength (byteLen text) vr.toVersion (detectCharacterSet text)
      ≤ vr.toVersion.dataCodewordBitLen er.toErrorCorrection) :
    SmallestFittingVersion vr text (selectedEcc vr er text) (selectedVersion vr er text) := by
  have hEcc := selectedEcc_spec vr er text h1 h5 hfit
  cases vr with
  | SpecificVersion v =>
    refine ⟨rfl, hEcc.2.1, ?_⟩
    intro n ha _
    have hn : n = v.version := ha
    have hsel : (selectedVersion (.SpecificVersion v) er text).version = v.version := rfl
    omega
  | MaxVersion u =>
    have hsel : selectedVersion (.MaxVersion u) er text
        = ⟨selectVersionAux
            (calculateEncodedDataBitLength (byteLen text) u (detectCharacterSet text))
            (selectedEcc (.MaxVersion u) er text) u.version⟩ := rfl
    rw [hsel]
    have hs := selectVersionAux_spec
      (calculateEncodedDataBitLength (byteLen text) u (detectCharacterSet text))
      (selectedEcc (.MaxVersion u) er text) u.version h1 h5 hEcc.2.1
    refine ⟨⟨hs.1, hs.2.1⟩, ?_, ?_⟩
    · show calculateEncodedDataBitLength (byteLen text) _ (detectCharacterSet text) ≤ _
      rw [calcBits_version_const (byteLen text) (detectCharacterSet text)
        (selectVersionAux
          (calculateEncodedDataBitLength (byteLen text) u (detectCharacterSet text))
          (selectedEcc (.MaxVersion u) er text) u.version)
        u.version hs.1 (le_trans hs.2.1 h5) h1 h5]
      exact hs.2.2.1
    · intro n ha hfitn
      have han : 1 ≤ n ∧ n ≤ u.version := ha
      apply hs.2.2.2 n han.1 han.2
      have hconst := calcBits_version_const (byteLen text) (detectCharacterSet text)
        n u.version han.1 (le_trans han.2 h5) h1 h5
      have hfitn2 : calculateEncodedDataBitLength (byteLen text) ⟨n⟩ (detectCharacterSet text)
          ≤ (Version.mk n).dataCodewordBitLen (selectedEcc (.MaxVersion u) er text) := hfitn
      rw [hconst] at hfitn2
      exact hfitn2

/-- C3 counterexample: for seventeen `'a'` characters with max version 1 and
minimum ECC Low, the length-formula bit count (148) fits the 152-bit
capacity — so by the claim `encode_text` should succeed — yet the encoder
panics in the padding stage. -/
theorem c3_counterexample :
    calculateEncodedDataBitLength (byteLen isoCexText) ⟨1⟩ (detectCharacterSet isoCexText)
        ≤ (Version.mk 1).dataCodewordBitLen .Low
    ∧ encodeText (.MaxVersion ⟨1⟩) (.MinErrorCorrection .Low) isoCexText
        = EncodeOutcome.panicked := by
  constructor <;> decide

/-- C3 amended: for every payload and restrictions over the supported
versions, `encode_text` fails exactly when the length-formula bit count at
the upper-bound version exceeds the capacity at the minimum ECC; otherwise
the selected pair is the highest allowed fitting ECC with the smallest
allowed fitting version, and encoding succeeds with that pair unless the
encoded prefix is exactly `capacity - 4` bits long, in which case the
padding stage panics. -/
theorem c3_selection_amended (vr : VersionRestriction) (er : ErrorCorrectionRestriction)
    (text : List Nat) (h1 : 1 ≤ vr.toVersion.version) (h5 : vr.toVersion.version ≤ 5) :
    C3Conclusion vr er text := by
  constructor
  · constructor
    · intro h
      by_contra hnot
      simp only [encodeText] at h
      rw [if_neg hnot] at h
      split at h <;> simp_all
    · intro hlt
      simp only [encodeText]
      rw [if_pos hlt]
  · intro hfit
    have hEcc := selectedEcc_spec vr er text h1 h5 hfit
    have hVer := selectedVersion_spec vr er text h1 h5 hfit
    have hnoterr : ¬ (vr.toVersion.dataCodewordBitLen er.toErrorCorrection
        < calculateEncodedDataBitLength (byteLen text) vr.toVersion (detectCharacterSet text)) :=
      not_lt.mpr hfit
    have hsv1 : 1 ≤ (selectedVersion vr er text).version := by
      cases vr with
      | MaxVersion u => exact hVer.1.1
      | SpecificVersion v =>
        have ha : (selectedVersion (.SpecificVersion v) er text).version = v.version := rfl
        have hb : (VersionRestriction.SpecificVersion v).toVersion.version = v.version := rfl
        omega
    have hsv5 : (selectedVersion vr er text).version ≤ 5 := by
      cases vr with
      | MaxVersion u => exact le_trans hVer.1.2 h5
      | SpecificVersion v =>
        have ha : (selectedVersion (.SpecificVersion v) er text).version = v.version := rfl
        have hb : (VersionRestriction.SpecificVersion v).toVersion.version = v.version := rfl
        omega
    have hLle : (encodePrefix (detectCharacterSet text) (selectedVersion vr er text) text).length
        ≤ (selectedVersion vr er text).dataCodewordBitLen (selectedEcc vr er text) :=
      le_trans (encodePrefix_length_le (selectedVersion vr er text) text) hVer.2.1
    have hcore := terminatorAndPadding_core
      ((selectedVersion vr er text).dataCodewordBitLen (selectedEcc vr er text))
      (encodePrefix (detectCharacterSet text) (selectedVersion vr er text) text)
      (dataCodewordBitLen_mod_eight _ _) hLle
    have hge8 := dataCodewordBitLen_ge8 (selectedVersion vr er text) hsv1 hsv5
      (selectedEcc vr er text)
    refine ⟨hEcc, hVer, ?_, ?_⟩
    · intro hEq
      have hcond :
          ((encodePrefix (detectCharacterSet text) (selectedVersion vr er text) text).length + 4)
              % 8 = 0
          ∧ 4 ≤ (selectedVersion vr er text).dataCodewordBitLen (selectedEcc vr er text)
              - (encodePrefix (detectCharacterSet text) (selectedVersion vr er text) text).length := by
        have hmax8 := dataCodewordBitLen_mod_eight (selectedVersion vr er text)
          (selectedEcc vr er text)
        omega
      have hnone := (hcore.2.1 hcond).1 hEq
      simp only [encodeText]
      rw [if_neg hnoterr, encodeFor_eq, hnone]
    · intro hne
      by_cases hcond :
          ((encodePrefix (detectCharacterSet text) (selectedVersion vr er text) text).length + 4)
              % 8 = 0
          ∧ 4 ≤ (selectedVersion vr er text).dataCodewordBitLen (selectedEcc vr er text)
              - (encodePrefix (detectCharacterSet text) (selectedVersion vr er text) text).length
      · have hsome := (hcore.2.1 hcond).2 hne
        exact ⟨_, by simp only [encodeText]; rw [if_neg hnoterr, encodeFor_eq, hsome]⟩
      · have hdisj :
            ((encodePrefix (detectCharacterSet text) (selectedVersion vr er text) text).length + 4)
                % 8 ≠ 0
            ∨ (selectedVersion vr er text).dataCodewordBitLen (selectedEcc vr er text)
                - (encodePrefix (detectCharacterSet text)
                    (selectedVersion vr er text) text).length < 4 := by
          rcases not_and_or.mp hcond with h | h
          · exact Or.inl h
          · exact Or.inr (by omega)
        have hsome := hcore.1 hdisj
        exact ⟨_, by simp only [encodeText]; rw [if_neg hnoterr, encodeFor_eq, hsome]⟩

/-- Witness for C3's amended theorem: the eight-digit payload `"01234567"`
with max version 1 and minimum ECC Medium. -/
theorem c3_selection_amended_witness :
    (1 ≤ (VersionRestriction.MaxVersion ⟨1⟩).toVersion.version
      ∧ (VersionRestriction.MaxVersion ⟨1⟩).toVersion.version ≤ 5)
    ∧ C3Conclusion (.MaxVersion ⟨1⟩) (.MinErrorCorrection .Medium) numericTestDigits :=
  ⟨⟨by decide, by decide⟩,
    c3_selection_amended (.MaxVersion ⟨1⟩) (.MinErrorCorrection .Medium) numericTestDigits
      (by decide) (by decide)⟩

/-- C4: for every supported (version, ecc) pair, the block layout yielded by
`BlockLengthIterator` has per-block `data_len` summing to
`data_codeword_count`, exactly `data_codeword_count mod block_count` blocks
one codeword longer than the short length `data_codeword_count / block_count`,
and every block carries exactly `total_ecc / block_count` ECC codewords with
the division exact. -/
theorem c4_block_layout (v : Version) (e : ErrorCorrectionLevel)
    (h1 : 1 ≤ v.version) (h5 : v.version ≤ 5) :
    ((blockLengthList v e).map BlockLength.data_len).sum = v.dataCodewordCount e
    ∧ ((blockLengthList v e).filter (fun b =>
        b.data_len = v.dataCodewordCount e / (v.errorCorrectionCodewordBlocksCount e).2 + 1)).length
      = v.dataCodewordCount e % (v.errorCorrectionCodewordBlocksCount e).2
    ∧ (v.errorCorrectionCodewordBlocksCount e).1 % (v.errorCorrectionCodewordBlocksCount e).2 = 0
    ∧ ∀ b ∈ blockLengthList v e,
        b.ecc_len = (v.errorCorrectionCodewordBlocksCount e).1
          / (v.errorCorrectionCodewordBlocksCount e).2 := by
  obtain ⟨n⟩ := v
  interval_cases n <;> cases e <;> decide

/-- Witness for C4 at version 5, ECC Quartile. -/
theorem c4_block_layout_witness :
    (1 ≤ (Version.mk 5).version ∧ (Version.mk 5).version ≤ 5)
    ∧ (((blockLengthList ⟨5⟩ .Quartile).map BlockLength.data_len).sum
        = (Version.mk 5).dataCodewordCount .Quartile
      ∧ ((blockLengthList ⟨5⟩ .Quartile).filter (fun b =>
          b.data_len = (Version.mk 5).dataCodewordCount .Quartile
            / ((Version.mk 5).errorCorrectionCodewordBlocksCount .Quartile).2 + 1)).length
        = (Version.mk 5).dataCodewordCount .Quartile
            % ((Version.mk 5).errorCorrectionCodewordBlocksCount .Quartile).2
      ∧ ((Version.mk 5).errorCorrectionCodewordBlocksCount .Quartile).1
          % ((Version.mk 5).errorCorrectionCodewordBlocksCount .Quartile).2 = 0
      ∧ ∀ b ∈ blockLengthList ⟨5⟩ .Quartile,
          b.ecc_len = ((Version.mk 5).errorCorrectionCodewordBlocksCount .Quartile).1
            / ((Version.mk 5).errorCorrectionCodewordBlocksCount .Quartile).2) :=
  ⟨⟨by decide, by decide⟩, c4_block_layout ⟨5⟩ .Quartile (by decide) (by decide)⟩

/-- C5: for every ECC level and mask reference 0..=7, `FormatEncoder::encode`
returns the BCH(15,5)-extended and masked sequence of the 5-bit data
`(ecc_bits << 3) | mask_ref`, and the whole 32-entry lookup table agrees with
the computed definition. -/
theorem c5_format_bch (e : ErrorCorrectionLevel) (r : Nat) (h : r < 8) :
    FormatEncoder.encode ⟨e, r⟩ = specFormatSequence ((specEccBits e <<< 3) ||| r)
    ∧ ∀ d < 32, maskedSequence d = specFormatSequence d := by
  constructor
  · cases e <;> interval_cases r <;> decide
  · decide

/-- Witness for C5 at ECC Quartile, mask reference 6. -/
theorem c5_format_bch_witness :
    (6 : Nat) < 8
    ∧ (FormatEncoder.encode ⟨.Quartile, 6⟩ = specFormatSequence ((specEccBits .Quartile <<< 3) ||| 6)
      ∧ ∀ d < 32, maskedSequence d = specFormatSequence d) :=
  ⟨by decide, c5_format_bch .Quartile 6 (by decide)⟩

/-- Inverting a color twice is the identity. -/
theorem Color.inverse_inverse (c : Color) : c.inverse.inverse = c := by
  cases c <;> rfl

/-- Masking keeps the logical size. -/
theorem Matrix.mask_size (m : Matrix) (reference : Nat) :
    (m.mask reference).size = m.size := rfl

/-- C6: applying any mask reference 0..=7 twice yields the original matrix;
masking flips exactly the `Filled` modules at in-range positions where the
mask predicate holds and leaves every non-`Filled` module unchanged. -/
theorem c6_mask_involution (reference : Nat) (m : Matrix) (h : reference ≤ 7) :
    (m.mask reference).mask reference = m
    ∧ (∀ x y c, x < m.size → y < m.size → m.data x y = .Filled c →
        (m.mask reference).data x y
          = (if maskCondition reference x y then Module.Filled c.inverse else .Filled c))
    ∧ (∀ x y, (∀ c, m.data x y ≠ .Filled c) → (m.mask reference).data x y = m.data x y)
    ∧ (∀ x y, maskCondition reference x y = false →
        (m.mask reference).data x y = m.data x y) := by
  refine ⟨?_, ?_, ?_, ?_⟩
  · cases m with
    | mk n f =>
      simp only [Matrix.mask, Matrix.mk.injEq]
      refine ⟨trivial, ?_⟩
      funext x y
      by_cases hxy : x < n ∧ y < n
      · simp only [hxy, if_pos]
        cases hd : f x y with
        | Filled c =>
          by_cases hc : maskCondition reference x y
          · simp [hc, hd, Color.inverse_inverse]
          · simp [hc, hd]
        | Empty => simp [hd]
        | Static c => simp [hd]
        | Reserved => simp [hd]
      · simp [hxy]
  · intro x y c hx hy hfc
    by_cases hc : maskCondition reference x y
    · simp [Matrix.mask, hx, hy, hfc, hc]
    · simp [Matrix.mask, hx, hy, hfc, hc]
  · intro x y hne
    simp only [Matrix.mask]
    by_cases hxy : x < m.size ∧ y < m.size
    · simp only [hxy, if_pos]
      cases hd : m.data x y with
      | Filled c => exact absurd hd (hne c)
      | Empty => rfl
      | Static c => rfl
      | Reserved => rfl
    · simp [hxy]
  · intro x y hc
    simp only [Matrix.mask]
    by_cases hxy : x < m.size ∧ y < m.size
    · simp only [hxy, if_pos]
      cases hd : m.data x y <;> simp [hc]
    · simp [hxy]

/-- Witness for C6 at mask reference 3 on a concrete matrix. -/
theorem c6_mask_involution_witness :
    (3 : Nat) ≤ 7
    ∧ ((smallMatrix.mask 3).mask 3 = smallMatrix
      ∧ (∀ x y c, x < smallMatrix.size → y < smallMatrix.size →
          smallMatrix.data x y = .Filled c →
          (smallMatrix.mask 3).data x y
            = (if maskCondition 3 x y then Module.Filled c.inverse else .Filled c))
      ∧ (∀ x y, (∀ c, smallMatrix.data x y ≠ .Filled c) →
          (smallMatrix.mask 3).data x y = smallMatrix.data x y)
      ∧ (∀ x y, maskCondition 3 x y = false →
          (smallMatrix.mask 3).data x y = smallMatrix.data x y)) :=
  ⟨by decide, c6_mask_involution 3 smallMatrix (by decide)⟩

/-- C8 counterexample: on a concrete 21×21 masked matrix with 242 black
modules the code's proportion score is 0 while the round-to-nearest score of
the claim is 10. -/
theorem c8_counterexample :
    (proportionCexMatrix.mask 0).scoreProportion = 0
    ∧ specScoreProportionRound (proportionCexMatrix.mask 0) = 10
    ∧ (proportionCexMatrix.mask 0).scoreProportion
        ≠ specScoreProportionRound (proportionCexMatrix.mask 0) := by
  refine ⟨?_, ?_, ?_⟩ <;> decide

/-- C8 amended: for every matrix of positive size, the proportion penalty
equals `⌊k/5⌋·10` with `k = |p − 50|` and `p = ⌊100·black/total⌋` — the
percentage is floored by integer division, not rounded to nearest. -/
theorem c8_proportion_floor (m : Matrix) (h : 0 < m.size) :
    m.scoreProportion = specScoreProportionFloor m := by
  have hp : m.blackCount * 100 = 100 * m.blackCount := Nat.mul_comm _ _
  simp only [Matrix.scoreProportion, specScoreProportionFloor, hp]
  generalize 100 * m.blackCount / (m.size * m.size) = p
  split_ifs with hlt <;> omega

/-- Witness for C8's amended theorem on the concrete 21×21 matrix. -/
theorem c8_proportion_floor_witness :
    0 < proportionCexMatrix.size
    ∧ proportionCexMatrix.scoreProportion = specScoreProportionFloor proportionCexMatrix :=
  ⟨by decide, c8_proportion_floor proportionCexMatrix (by decide)⟩

/-- `whiten_unfilled` keeps the logical size. -/
theorem whitenUnfilled_size (m : Matrix) : (m.whitenUnfilled).size = m.size := rfl

/-- Replacing `Empty`/`Reserved` by white `Filled` modules does not change
any module's color. -/
theorem whitenUnfilled_toColor (m : Matrix) (x y : Nat) :
    ((m.whitenUnfilled).data x y).toColor = (m.data x y).toColor := by
  simp only [Matrix.whitenUnfilled]
  cases m.data x y <;> rfl

/-- Rows of colors are unchanged by whitening. -/
theorem rowColors_whitenUnfilled (m : Matrix) (x : Nat) :
    (m.whitenUnfilled).rowColors x = m.rowColors x := by
  simp only [Matrix.rowColors, whitenUnfilled_size, whitenUnfilled_toColor]

/-- Columns of colors are unchanged by whitening. -/
theorem colColors_whitenUnfilled (m : Matrix) (y : Nat) :
    (m.whitenUnfilled).colColors y = m.colColors y := by
  simp only [Matrix.colColors, whitenUnfilled_size, whitenUnfilled_toColor]

/-- The black-module count is unchanged by whitening. -/
theorem blackCount_whitenUnfilled (m : Matrix) :
    (m.whitenUnfilled).blackCount = m.blackCount := by
  simp only [Matrix.blackCount, whitenUnfilled_size, whitenUnfilled_toColor]

/-- C10: the `Module`-to-`Color` conversion maps `Empty` and `Reserved` to
white and `Filled`/`Static` to their stored color, so the penalty score and
the final color grid treat any unfilled or reserved module as a white
module. -/
theorem c10_module_color :
    Module.Empty.toColor = Color.White
    ∧ Module.Reserved.toColor = Color.White
    ∧ (∀ c, (Module.Filled c).toColor = c ∧ (Module.Static c).toColor = c)
    ∧ (∀ m : Matrix, (m.whitenUnfilled).score = m.score
        ∧ QrCode.ofMasked m.whitenUnfilled = QrCode.ofMasked m) := by
  refine ⟨rfl, rfl, fun c => ⟨rfl, rfl⟩, fun m => ⟨?_, ?_⟩⟩
  · simp only [Matrix.score, Matrix.scoreAdjacentHorizontal, Matrix.scoreAdjacentVertical,
      Matrix.scoreBlocks, Matrix.scorePatternHorizontal, Matrix.scorePatternVertical,
      Matrix.scoreProportion, whitenUnfilled_size, whitenUnfilled_toColor,
      rowColors_whitenUnfilled, colColors_whitenUnfilled, blackCount_whitenUnfilled]
  · simp only [QrCode.ofMasked, whitenUnfilled_size, QrCode.mk.injEq]
    refine ⟨trivial, ?_⟩
    funext x y
    by_cases hxy : x < m.size ∧ y < m.size
    · simp [hxy, whitenUnfilled_toColor]
    · simp [hxy]

/-- The draw iterator yields nothing once `y` reaches the height. -/
theorem drawRun_stop (q : QrCode) (x y : Nat) (h : drawHeight q ≤ y) :
    drawRun q x y = [] := by
  rw [drawRun, if_neg (Nat.not_lt.mpr h)]

/-- One row of the draw iterator: from `(x, y)` with `x + k = width`, it
yields the rest of row `y` and then continues at `(0, y + 1)`. -/
theorem drawRun_row (q : QrCode) (y : Nat) (hy : y < drawHeight q) :
    ∀ k x, x + k = drawWidth q → 0 < k →
      drawRun q x y
        = ((List.range' x k).map fun i => (i, y, drawColor q i y)) ++ drawRun q 0 (y + 1) := by
  intro k
  induction k with
  | zero => omega
  | succ k ih =>
    intro x hx _
    rw [drawRun, if_pos hy]
    by_cases hxe : x + 1 ≥ drawWidth q
    · have hk0 : k = 0 := by omega
      subst hk0
      simp [hxe, List.range'_succ]
    · rw [if_neg hxe, ih (x + 1) (by omega) (by omega)]
      simp [List.range'_succ]

/-- The draw iterator from `(0, y)` yields rows `y, y+1, …` in row-major
order. -/
theorem drawRun_rows (q : QrCode) :
    ∀ r y, y + r = drawHeight q →
      drawRun q 0 y
        = (List.range' y r).flatMap fun yy =>
            (List.range (drawWidth q)).map fun x => (x, yy, drawColor q x yy) := by
  intro r
  induction r with
  | zero =>
    intro y hy
    simp [drawRun_stop q 0 y (by omega)]
  | succ r ih =>
    intro y hy
    have hy' : y < drawHeight q := by omega
    have hw : 0 < drawWidth q := by
      simp only [drawWidth]
      omega
    rw [drawRun_row q y hy' (drawWidth q) 0 (by omega) hw, ih (y + 1) (by omega)]
    simp [List.range'_succ, List.range_eq_range']

/-- The complete yield of the draw iterator as a flat row-major list. -/
theorem drawIter_eq (q : QrCode) :
    drawIter q
      = (List.range (drawHeight q)).flatMap fun y =>
          (List.range (drawWidth q)).map fun x => (x, y, drawColor q x y) := by
  rw [drawIter, drawRun_rows q (drawHeight q) 0 (by omega)]
  simp [List.range_eq_range']

/-- C7: the draw iterator reports `width = height = size + 8`, yields the
coordinates of `[0, size+8) × [0, size+8)` exactly once in row-major order
(`y` outer, `x` inner), and yields every coordinate of the outer four-module
band with color white. -/
theorem c7_draw_iterator (q : QrCode) :
    (drawWidth q = q.size + 8 ∧ drawHeight q = q.size + 8)
    ∧ (drawIter q).map (fun t => (t.1, t.2.1))
        = (List.range (q.size + 8)).flatMap
            (fun y => (List.range (q.size + 8)).map fun x => (x, y))
    ∧ ∀ x y, x < q.size + 8 → y < q.size + 8 →
        (x < 4 ∨ y < 4 ∨ q.size + 4 ≤ x ∨ q.size + 4 ≤ y) →
        (x, y, Color.White) ∈ drawIter q := by
  have hw : drawWidth q = q.size + 8 := by simp [drawWidth, Nat.add_comm]
  have hh : drawHeight q = q.size + 8 := by simp [drawHeight, Nat.add_comm]
  refine ⟨⟨hw, hh⟩, ?_, ?_⟩
  · rw [drawIter_eq, hw, hh, List.map_flatMap]
    simp only [List.map_map]
    rfl
  · intro x y hx hy hborder
    have hcol : drawColor q x y = Color.White := by
      rw [drawColor, if_pos]
      rcases hborder with h | h | h | h
      · exact Or.inl h
      · exact Or.inr (Or.inl h)
      · exact Or.inr (Or.inr (Or.inl h))
      · exact Or.inr (Or.inr (Or.inr h))
    rw [drawIter_eq, hw, hh]
    refine List.mem_flatMap.mpr ⟨y, List.mem_range.mpr hy, ?_⟩
    refine List.mem_map.mpr ⟨x, List.mem_range.mpr hx, ?_⟩
    rw [hcol]

/-- Witness for C7: the draw iterator of the concrete size-1 code yields the
corner of the quiet zone white. -/
theorem c7_draw_iterator_witness :
    ((0 : Nat) < smallQrCode.size + 8 ∧ (0 : Nat) < smallQrCode.size + 8
      ∧ ((0 : Nat) < 4 ∨ (0 : Nat) < 4 ∨ smallQrCode.size + 4 ≤ 0 ∨ smallQrCode.size + 4 ≤ 0))
    ∧ (0, 0, Color.White) ∈ drawIter smallQrCode :=
  ⟨⟨by decide, by decide, Or.inl (by decide)⟩,
    (c7_draw_iterator smallQrCode).2.2 0 0 (by decide) (by decide) (Or.inl (by decide))⟩

/-- C9 counterexample: a builder with no text payload makes `build()` panic
on `Option::unwrap`, not return the spec's `MissingPayload` error kind. -/
theorem c9_counterexample :
    QrCodeBuilder.new.build = BuildResult.panickedUnwrap
    ∧ QrCodeBuilder.new.build ≠ BuildResult.missingPayloadError := by
  constructor <;> decide

/-- C9 amended: for every builder configuration without a text payload whose
version option passes the range assert, `build()` aborts with the
`Option::unwrap` panic rather than a `MissingPayload` error. -/
theorem c9_missing_text_panics (b : QrCodeBuilder)
    (ht : b.text = none) (hv : b.version.getD MAX_VERSION ≤ MAX_VERSION) :
    b.build = BuildResult.panickedUnwrap := by
  simp [QrCodeBuilder.build, ht, hv]

/-- Witness for C9 on the default builder. -/
theorem c9_missing_text_panics_witness :
    (QrCodeBuilder.new.text = none
      ∧ QrCodeBuilder.new.version.getD MAX_VERSION ≤ MAX_VERSION)
    ∧ QrCodeBuilder.new.build = BuildResult.panickedUnwrap :=
  ⟨⟨by decide, by decide⟩, c9_missing_text_panics QrCodeBuilder.new (by decide) (by decide)⟩

end TinyQr
